import Mathlib

/-!
# Verification of the Hack-2025 veracity-scoring core

Shallow embedding of `src/Scrapper/scrapper_logic/trusted_sources.py` and
`src/Scrapper/scrapper_logic/article_analyzer.py`.

Python floats are modelled as `Rat`; Python `str` as Lean `String`
(`List Char` underneath).  Character classes (`\w`, `.lower()`) are modelled
on their ASCII behaviour.  Fallible code (the division in `verify_veracity`)
returns `Except`.

`calculate_similarity` calls `difflib.SequenceMatcher(None, a, b).ratio()`,
so the relevant parts of CPython's `difflib` are embedded here as well:
`__chain_b` (autojunk "popular" filtering; `isjunk is None`, hence the junk
set is empty), `find_longest_match` (dynamic-programming scan plus the two
non-junk extension loops; the two junk extension loops are no-ops because the
junk set is empty), `get_matching_blocks` (only the total matched size
matters for `ratio`) and `_calculate_ratio`.
-/

section ScrapperDevelopment

/- The Batteries `Rat` operations are `@[irreducible]`, which blocks `decide`
on concrete rational values; make them reducible for this development. -/
attribute [local semireducible] Rat.mul Rat.inv Rat.add Rat.sub

namespace Scrapper

/-! ## difflib.SequenceMatcher -/

/-- Autojunk from `__chain_b`: an element of `b` is "popular" (autojunk) when `len(b) >= 200`
and it occurs more than `len(b) // 100 + 1` times; popular elements are
removed from `b2j`. -/
def popularB (b : List Char) (c : Char) : Bool :=
  decide (200 ≤ b.length) && decide (b.length / 100 + 1 < b.count c)

/-- Holds when `a[i]` and `b[j]` are both in range, equal, and `b[j]` survives in `b2j`
(not popular).  This is exactly the condition for the inner DP loop of
`find_longest_match` to visit the cell `(i, j)`. -/
def charsOk (a b : List Char) (i j : Nat) : Bool :=
  match a.get? i, b.get? j with
  | some x, some y => x == y && !(popularB b y)
  | _, _ => false

/-- Cell `(i, j)` is scanned by the inner loop: `j` is one of the `b2j`
positions of `a[i]` lying in `[blo, bhi)`. -/
def visitB (a b : List Char) (blo bhi : Nat) (i j : Nat) : Bool :=
  decide (blo ≤ j) && decide (j < bhi) && charsOk a b i j

/-- The DP table of `find_longest_match`: `j2len[j]` at row `i` — the length
of the longest junk-free match ending with `a[i]` and `b[j]`.
`dpLen i j = j2len.get(j-1, 0) + 1` when the cell is visited, else `0`
(absent key). -/
def dpLen (a b : List Char) (alo blo bhi : Nat) : Nat → Nat → Nat
  | 0, j => if visitB a b blo bhi 0 j then 1 else 0
  | i + 1, j =>
    if visitB a b blo bhi (i + 1) j then
      (if alo < i + 1 ∧ blo < j then dpLen a b alo blo bhi i (j - 1) else 0) + 1
    else 0

/-- The cells scanned by the two nested loops of `find_longest_match`, in scan
order: rows `i ∈ [alo, ahi)` ascending, and within each row the `b2j`
positions `j ∈ [blo, bhi)` of `a[i]` ascending. -/
def cells (a b : List Char) (alo ahi blo bhi : Nat) : List (Nat × Nat) :=
  (List.range' alo (ahi - alo)).flatMap fun i =>
    ((List.range' blo (bhi - blo)).filter fun j => visitB a b blo bhi i j).map
      fun j => (i, j)

/-- One step of the best-block tracking: at a visited cell `(i, j)` with DP
value `k`, update `(besti, bestj, bestsize)` when `k > bestsize`
(`besti = i-k+1`, `bestj = j-k+1`). -/
def bestStep (a b : List Char) (alo blo bhi : Nat)
    (st : Nat × Nat × Nat) (c : Nat × Nat) : Nat × Nat × Nat :=
  let k := dpLen a b alo blo bhi c.1 c.2
  if st.2.2 < k then (c.1 + 1 - k, c.2 + 1 - k, k) else st

/-- The DP phase of `find_longest_match`: fold the best-block update over all
scanned cells, starting from `(alo, blo, 0)`. -/
def dpBest (a b : List Char) (alo ahi blo bhi : Nat) : Nat × Nat × Nat :=
  (cells a b alo ahi blo bhi).foldl (bestStep a b alo blo bhi) (alo, blo, 0)

/-- Both indices in range and the characters equal (`a[i] == b[j]` in the
extension loops; junk never holds since `isjunk is None`). -/
def charsEq (a b : List Char) (i j : Nat) : Bool :=
  match a.get? i, b.get? j with
  | some x, some y => x == y
  | _, _ => false

/-- First backward extension loop of `find_longest_match`:
`while besti > alo and bestj > blo and a[besti-1] == b[bestj-1]`. -/
def extendBack (a b : List Char) (alo blo : Nat) :
    Nat → Nat → Nat → Nat × Nat × Nat
  | 0, bj, bk => (0, bj, bk)
  | bi + 1, bj, bk =>
    if alo < bi + 1 ∧ blo < bj ∧ charsEq a b bi (bj - 1) then
      extendBack a b alo blo bi (bj - 1) (bk + 1)
    else (bi + 1, bj, bk)

/-- First forward extension loop of `find_longest_match`:
`while besti+bestsize < ahi and bestj+bestsize < bhi and
a[besti+bestsize] == b[bestj+bestsize]: bestsize += 1`.
The loop body runs fewer than `ahi` times (each iteration needs
`besti + bestsize < ahi` and increments `bestsize`), so fuel `ahi` is enough. -/
def extendFwd (a b : List Char) (ahi bhi bi bj : Nat) : Nat → Nat → Nat
  | 0, bk => bk
  | fuel + 1, bk =>
    if bi + bk < ahi ∧ bj + bk < bhi ∧ charsEq a b (bi + bk) (bj + bk) then
      extendFwd a b ahi bhi bi bj fuel (bk + 1)
    else bk

/-- Embedding of `find_longest_match(alo, ahi, blo, bhi)` with `isjunk is None`: the DP
scan, then the two non-junk extension loops (the junk extension loops are
no-ops because the junk set is empty). -/
def findLongestMatch (a b : List Char) (alo ahi blo bhi : Nat) :
    Nat × Nat × Nat :=
  let st := dpBest a b alo ahi blo bhi
  let st2 := extendBack a b alo blo st.1 st.2.1 st.2.2
  (st2.1, st2.2.1, extendFwd a b ahi bhi st2.1 st2.2.1 ahi st2.2.2)

/-- Total matched size of `get_matching_blocks` on the subproblem
`a[alo:ahi] × b[blo:bhi]` (only the sum of block sizes matters for `ratio`).
`get_matching_blocks` recurses on the left part only when `alo < i ∧ blo < j`
and on the right part only when `i+k < ahi ∧ j+k < bhi`.  The structural
`fuel` argument dominates the termination measure
`(ahi - alo) + (bhi - blo)`, which strictly decreases on both recursive
calls; `matchTotal` supplies a sufficient amount and
`mtF_fuel_irrelevant` proves the fuel is unobservable. -/
def mtF (a b : List Char) : Nat → Nat → Nat → Nat → Nat → Nat
  | 0, _, _, _, _ => 0
  | fuel + 1, alo, ahi, blo, bhi =>
    if alo < ahi ∧ blo < bhi then
      let m := findLongestMatch a b alo ahi blo bhi
      if 0 < m.2.2 then
        (if alo < m.1 ∧ blo < m.2.1 then mtF a b fuel alo m.1 blo m.2.1 else 0)
          + m.2.2 +
        (if m.1 + m.2.2 < ahi ∧ m.2.1 + m.2.2 < bhi then
          mtF a b fuel (m.1 + m.2.2) ahi (m.2.1 + m.2.2) bhi else 0)
      else 0
    else 0

/-- The value `M = sum(triple[-1] for triple in self.get_matching_blocks())`
over the whole sequences. -/
def matchTotal (a b : List Char) : Nat :=
  mtF a b (a.length + b.length) 0 a.length 0 b.length

/-- Embedding of `_calculate_ratio(matches, len(a) + len(b))`: `2.0 * M / T` when `T`
is nonzero, and `1.0` when both sequences are empty. -/
def ratio (a b : List Char) : Rat :=
  if a.length + b.length = 0 then 1
  else (2 * (matchTotal a b : Rat)) / ((a.length : Rat) + (b.length : Rat))

/-- Embedding of `calculate_similarity(text1, text2)`:
`SequenceMatcher(None, text1, text2).ratio()`. -/
def calculate_similarity (text1 text2 : String) : Rat :=
  ratio text1.data text2.data

/-- Strict lexicographic order on DP cells: the scan order of the two nested
loops of `find_longest_match`. -/
def cellLt (c d : Nat × Nat) : Prop :=
  c.1 < d.1 ∨ (c.1 = d.1 ∧ c.2 < d.2)

/-- Well-formedness of a best-block triple `(besti, bestj, bestsize)` for the
subproblem `a[alo:ahi] × b[blo:bhi]`. -/
def BlockBounds (alo ahi blo bhi : Nat) (st : Nat × Nat × Nat) : Prop :=
  alo ≤ st.1 ∧ st.1 + st.2.2 ≤ ahi ∧ blo ≤ st.2.1 ∧ st.2.1 + st.2.2 ≤ bhi

/-! ## Trust registry (`trusted_sources.py`) -/

/-- The mapping loaded by `load_trusted_sources` from `trusted_sources.json`:
source name to the entry's `trust_level`.  A missing file
(`FileNotFoundError`) or malformed JSON (`json.JSONDecodeError`) yields the
empty mapping `[]`. -/
abbrev TrustConfig := List (String × Rat)

/-- Embedding of `get_source_trust_level(source_name)`: `sources[source_name]["trust_level"]`
when the name is a key of the loaded mapping, else `0.0`. -/
def get_source_trust_level (sources : TrustConfig) (source_name : String) : Rat :=
  match sources.lookup source_name with
  | some trust_level => trust_level
  | none => 0

/-! ## Text preprocessing and keywords (`trusted_sources.py`) -/

/-- Python's `\w` (word character), on its ASCII behaviour. -/
def isWordChar (c : Char) : Bool :=
  c.isAlphanum || c == '_'

/-- Python `str.split()` with no argument: split on whitespace runs,
dropping empty fields. -/
def pySplit (l : List Char) : List (List Char) :=
  (l.splitOnP Char.isWhitespace).filter fun w => w ≠ []

/-- Embedding of `preprocess_text(text)`: lowercase, drop characters that are neither word
characters nor whitespace (`re.sub(r'[^\w\s]', '', text)`), then collapse
whitespace (`' '.join(text.split())`). -/
def preprocess_text (text : String) : String :=
  let lowered := text.data.map Char.toLower
  let cleaned := lowered.filter fun c => isWordChar c || c.isWhitespace
  String.mk (List.intercalate [' '] (pySplit cleaned))

/-- The external NLTK collaborators of `extract_keywords`: `word_tokenize`,
the Romanian stopword set, and the Romanian Snowball stemmer.  They are
opaque language resources; the development is parameterised over them. -/
structure NLP where
  tokenize : String → List String
  stopwords : List String
  stem : String → String

/-- Embedding of `extract_keywords(text)`: tokenize the lowercased text, drop stopwords,
stem the remaining tokens. -/
def extract_keywords (nlp : NLP) (text : String) : List String :=
  let tokens := nlp.tokenize (String.mk (text.data.map Char.toLower))
  let filtered_tokens := tokens.filter fun word => !(nlp.stopwords.contains word)
  filtered_tokens.map nlp.stem

/-! ## verify_veracity (`trusted_sources.py`) -/

/-- An article record; `verify_veracity` reads only `title` and
`description`. -/
structure Article where
  title : String
  link : String
  description : String
  deriving DecidableEq, Repr

/-- One entry of `results['matches']`. -/
structure MatchResult where
  article : Article
  match_score : Rat
  title_similarity : Rat
  description_similarity : Rat
  keyword_overlap : Rat
  deriving DecidableEq, Repr

/-- The `results` dictionary of `verify_veracity`. -/
structure VeracityResult where
  veracity_score : Rat
  confidence : Rat
  «matches» : List MatchResult
  verdict : String
  deriving DecidableEq, Repr

/-- The one exception `verify_veracity` can raise: the division
`len(set(input_keywords) & set(article_keywords)) /
len(set(input_keywords) | set(article_keywords))` with an empty union. -/
inductive PyError where
  | zeroDivisionError
  deriving DecidableEq, Repr

instance {ε α : Type} [DecidableEq ε] [DecidableEq α] : DecidableEq (Except ε α)
  | .error a, .error b => decidable_of_iff (a = b) (by simp)
  | .ok a, .ok b => decidable_of_iff (a = b) (by simp)
  | .error _, .ok _ => .isFalse (by simp)
  | .ok _, .error _ => .isFalse (by simp)

/-- The size `len(set(x) & set(y))`. -/
def interCard (x y : List String) : Nat :=
  (x.dedup.filter fun s => s ∈ y).length

/-- The size `len(set(x) | set(y))`. -/
def unionCard (x y : List String) : Nat :=
  (x ++ y).dedup.length

/-- The per-article body of the `verify_veracity` loop, minus the
division-by-zero check: keyword extraction, the three similarity signals and
the weighted `match_score` (`title*0.4 + desc*0.4 + overlap*0.2`), with the
keyword overlap as total `Rat` division.  `scoreArticle` adds the
`ZeroDivisionError` behaviour on top of this. -/
def mkMatch (nlp : NLP) (processed_input : String) (input_keywords : List String)
    (article : Article) : MatchResult :=
  let processed_article := preprocess_text (article.title ++ " " ++ article.description)
  let article_keywords := extract_keywords nlp processed_article
  let title_similarity := calculate_similarity processed_input article.title
  let desc_similarity := calculate_similarity processed_input article.description
  let keyword_overlap :=
    (interCard input_keywords article_keywords : Rat) /
      (unionCard input_keywords article_keywords : Rat)
  { article := article
    match_score := title_similarity * (2/5) + desc_similarity * (2/5) + keyword_overlap * (1/5)
    title_similarity := title_similarity
    description_similarity := desc_similarity
    keyword_overlap := keyword_overlap }

/-- One iteration of the article loop: raises `ZeroDivisionError` when the
keyword union is empty, otherwise appends a `MatchResult` exactly when
`match_score > 0.3`. -/
def scoreArticle (nlp : NLP) (processed_input : String) (input_keywords : List String)
    (article : Article) : Except PyError (Option MatchResult) :=
  let article_keywords :=
    extract_keywords nlp (preprocess_text (article.title ++ " " ++ article.description))
  if unionCard input_keywords article_keywords = 0 then
    .error .zeroDivisionError
  else
    let m := mkMatch nlp processed_input input_keywords article
    .ok (if 3/10 < m.match_score then some m else none)

/-- The article loop of `verify_veracity`, in input order; the first
`ZeroDivisionError` aborts the call. -/
def collectMatches (nlp : NLP) (processed_input : String) (input_keywords : List String) :
    List Article → Except PyError (List MatchResult)
  | [] => .ok []
  | article :: rest => do
    let m ← scoreArticle nlp processed_input input_keywords article
    let ms ← collectMatches nlp processed_input input_keywords rest
    pure (match m with | some r => r :: ms | none => ms)

/-- Insertion for the stable descending sort
`results['matches'].sort(key=lambda x: x['match_score'], reverse=True)`;
a later element is placed after all
earlier elements with a greater-or-equal score. -/
def insertDesc (m : MatchResult) : List MatchResult → List MatchResult
  | [] => [m]
  | y :: t => if m.match_score ≤ y.match_score then y :: insertDesc m t else m :: y :: t

/-- Stable descending sort by `match_score` (Python `list.sort` with
`reverse=True` is stable: ties keep their original relative order). -/
def sortDesc (l : List MatchResult) : List MatchResult :=
  l.foldl (fun acc m => insertDesc m acc) []

/-- A placeholder `MatchResult` for `headD`; never used on the reachable
paths (the sorted list is a permutation of a non-empty list there). -/
def dummyMatch : MatchResult :=
  { article := ⟨"", "", ""⟩, match_score := 0, title_similarity := 0
    description_similarity := 0, keyword_overlap := 0 }

/-- The verdict thresholds of `verify_veracity`:
`> 0.7 → true`, `> 0.4 → likely_true`, `> 0.2 → likely_false`,
else `false`. -/
def verdictBucket (veracity_score : Rat) : String :=
  if 7/10 < veracity_score then "true"
  else if 2/5 < veracity_score then "likely_true"
  else if 1/5 < veracity_score then "likely_false"
  else "false"

/-- Embedding of `verify_veracity(input_text, articles)`.  The trust registry collaborator
is the `sources` parameter (the mapping `load_trusted_sources` would read
from disk); the code looks up the hardcoded source name `'veridica'`.
Returns the `results` dictionary, or the uncaught `ZeroDivisionError`. -/
def verify_veracity (nlp : NLP) (sources : TrustConfig) (input_text : String)
    (articles : List Article) : Except PyError VeracityResult := do
  let processed_input := preprocess_text input_text
  let input_keywords := extract_keywords nlp processed_input
  let «matches» ← collectMatches nlp processed_input input_keywords articles
  match «matches» with
  | [] => pure { veracity_score := 0, confidence := 0, «matches» := [], verdict := "unknown" }
  | _ :: _ =>
    let sorted := sortDesc «matches»
    let best_match := sorted.headD dummyMatch
    let source_trust := get_source_trust_level sources "veridica"
    let veracity_score := best_match.match_score * source_trust
    pure { veracity_score := veracity_score
           confidence := min 1 ((sorted.length : Rat) * (1/5))
           «matches» := sorted
           verdict := verdictBucket veracity_score }

/-- The pure rendering of one loop iteration (total `Rat` division standing
in for the Python division): `some` of the match record when the article is
admitted (`match_score > 0.3`), else `none`.  On every run that raises no
`ZeroDivisionError` it agrees with `scoreArticle`. -/
def admitArticle (nlp : NLP) (input_text : String) (article : Article) : Option MatchResult :=
  let processed_input := preprocess_text input_text
  let input_keywords := extract_keywords nlp processed_input
  let m := mkMatch nlp processed_input input_keywords article
  if 3/10 < m.match_score then some m else none

/-! ## find_similar_articles (`article_analyzer.py`) -/

/-- One entry of the `results` list of `find_similar_articles`. -/
structure SimEntry where
  title : String
  link : String
  description : String
  similarity : Rat
  tagged_bad : Bool
  deriving DecidableEq, Repr

/-- Embedding of `ArticleAnalyzer.find_similar_articles(input_text,
articles, is_bad, threshold)`.  The spaCy lemmatizer (`preprocess_text`) and the TF-IDF cosine
similarity (`calculate_similarity`) are external models, passed as the
parameters `pre` and `sim`.  The skip guard is translated as in the source:
`article_text = f"{title} {description}"` (title and description joined by a
single space) followed by `if not article_text: continue`. -/
def find_similar_articles (pre : String → String) (sim : String → String → Rat)
    (input_text : String) (articles : List Article) (tagged_bad : Bool)
    (threshold : Rat) : List SimEntry :=
  let preprocessed_input := pre input_text
  articles.foldl
    (fun results article =>
      let article_text := article.title ++ " " ++ article.description
      if article_text = "" then results
      else
        let preprocessed_article := pre article_text
        let similarity := sim preprocessed_input preprocessed_article
        if threshold < similarity then
          results ++ [{ title := article.title, link := article.link
                        description := article.description
                        similarity := similarity, tagged_bad := tagged_bad }]
        else results)
    []

/-- A concrete stand-in for the external NLTK collaborators, used for
witnesses and counterexamples: whitespace tokenization, no stopwords,
identity stemmer.  Like `nltk.word_tokenize`, it maps `""` to `[]`. -/
def simpleNLP : NLP where
  tokenize s := (pySplit s.data).map String.mk
  stopwords := []
  stem := id

/-! ## General lemmas about the SequenceMatcher embedding -/

theorem cellLt_asymm {c d : Nat × Nat} (h1 : cellLt c d) (h2 : cellLt d c) : False := by
  rcases h1 with h1 | ⟨h1, h1'⟩ <;> rcases h2 with h2 | ⟨h2, h2'⟩ <;> omega

theorem visitB_range {a b : List Char} {blo bhi i j : Nat}
    (h : visitB a b blo bhi i j = true) : blo ≤ j ∧ j < bhi := by
  unfold visitB at h
  simp only [Bool.and_eq_true, decide_eq_true_eq] at h
  exact ⟨h.1.1, h.1.2⟩

theorem mem_cells {a b : List Char} {alo ahi blo bhi : Nat} {c : Nat × Nat} :
    c ∈ cells a b alo ahi blo bhi ↔
      alo ≤ c.1 ∧ c.1 < ahi ∧ visitB a b blo bhi c.1 c.2 = true := by
  obtain ⟨i, j⟩ := c
  unfold cells
  simp only [List.mem_flatMap, List.mem_map, List.mem_filter, List.mem_range'_1,
    Prod.mk.injEq]
  constructor
  · rintro ⟨i', ⟨hi1, hi2⟩, j', ⟨⟨hj1, hj2⟩, hv⟩, rfl, rfl⟩
    exact ⟨hi1, by omega, hv⟩
  · rintro ⟨hi1, hi2, hv⟩
    have hj := visitB_range hv
    exact ⟨i, ⟨hi1, by omega⟩, j, ⟨⟨hj.1, by omega⟩, hv⟩, rfl, rfl⟩

theorem cells_pairwise (a b : List Char) (alo ahi blo bhi : Nat) :
    (cells a b alo ahi blo bhi).Pairwise cellLt := by
  unfold cells
  rw [List.pairwise_flatMap]
  constructor
  · intro i _
    rw [List.pairwise_map]
    exact ((List.pairwise_lt_range' blo (bhi - blo)).filter _).imp
      fun h => Or.inr ⟨rfl, h⟩
  · refine (List.pairwise_lt_range' alo (ahi - alo)).imp ?_
    intro i1 i2 h x hx y hy
    obtain ⟨j1, _, rfl⟩ := List.mem_map.1 hx
    obtain ⟨j2, _, rfl⟩ := List.mem_map.1 hy
    exact Or.inl h

theorem dpLen_le_left (a b : List Char) (alo blo bhi : Nat) :
    ∀ i j, alo ≤ i → dpLen a b alo blo bhi i j ≤ i + 1 - alo := by
  intro i
  induction i with
  | zero =>
    intro j h
    simp only [dpLen]
    split <;> omega
  | succ n ih =>
    intro j h
    simp only [dpLen]
    split
    · split
      · rename_i hg
        have := ih (j - 1) (by omega)
        omega
      · omega
    · omega

theorem dpLen_le_right (a b : List Char) (alo blo bhi : Nat) :
    ∀ i j, blo ≤ j → dpLen a b alo blo bhi i j ≤ j + 1 - blo := by
  intro i
  induction i with
  | zero =>
    intro j h
    simp only [dpLen]
    split <;> omega
  | succ n ih =>
    intro j h
    simp only [dpLen]
    split
    · split
      · rename_i hg
        have := ih (j - 1) (by omega)
        omega
      · omega
    · omega

theorem foldl_prefix_inv {α σ : Type} (step : σ → α → σ) (P : σ → List α → Prop)
    (full : List α)
    (hstep : ∀ st done c post, full = done ++ c :: post → P st done →
      P (step st c) (done ++ [c])) :
    ∀ (rest pre : List α) (st : σ), full = pre ++ rest → P st pre →
      P (List.foldl step st rest) full := by
  intro rest
  induction rest with
  | nil =>
    intro pre st h hP
    rw [List.foldl_nil, h, List.append_nil]
    exact hP
  | cons c rs ih =>
    intro pre st h hP
    rw [List.foldl_cons]
    exact ih (pre ++ [c]) (step st c) (by rw [h]; simp) (hstep st pre c rs h hP)

theorem dpBest_bounds (a b : List Char) (alo ahi blo bhi : Nat)
    (h1 : alo ≤ ahi) (h2 : blo ≤ bhi) :
    BlockBounds alo ahi blo bhi (dpBest a b alo ahi blo bhi) := by
  unfold dpBest
  refine List.foldlRecOn _ _ _
    ⟨le_refl _, by simpa using h1, le_refl _, by simpa using h2⟩ ?_
  intro st hst c hc
  obtain ⟨hc1, hc2, hcv⟩ := mem_cells.1 hc
  obtain ⟨hj1, hj2⟩ := visitB_range hcv
  obtain ⟨hs1, hs2, hs3, hs4⟩ := hst
  simp only [bestStep]
  split
  · have hL := dpLen_le_left a b alo blo bhi c.1 c.2 hc1
    have hR := dpLen_le_right a b alo blo bhi c.1 c.2 hj1
    refine ⟨?_, ?_, ?_, ?_⟩ <;> dsimp only [BlockBounds] <;> omega
  · exact ⟨hs1, hs2, hs3, hs4⟩

theorem extendBack_bounds (a b : List Char) (alo blo ahi bhi : Nat) :
    ∀ bi bj bk, alo ≤ bi → bi + bk ≤ ahi → blo ≤ bj → bj + bk ≤ bhi →
      BlockBounds alo ahi blo bhi (extendBack a b alo blo bi bj bk) := by
  intro bi
  induction bi with
  | zero =>
    intro bj bk h1 h2 h3 h4
    exact ⟨h1, h2, h3, h4⟩
  | succ n ih =>
    intro bj bk h1 h2 h3 h4
    rw [extendBack]
    split
    · rename_i hg
      exact ih (bj - 1) (bk + 1) (by omega) (by omega) (by omega) (by omega)
    · exact ⟨h1, h2, h3, h4⟩

theorem extendFwd_le (a b : List Char) (ahi bhi bi bj : Nat) :
    ∀ fuel bk, bi + bk ≤ ahi → bj + bk ≤ bhi →
      bi + extendFwd a b ahi bhi bi bj fuel bk ≤ ahi ∧
      bj + extendFwd a b ahi bhi bi bj fuel bk ≤ bhi := by
  intro fuel
  induction fuel with
  | zero =>
    intro bk h1 h2
    exact ⟨h1, h2⟩
  | succ n ih =>
    intro bk h1 h2
    rw [extendFwd]
    split
    · rename_i hg
      exact ih (bk + 1) (by omega) (by omega)
    · exact ⟨h1, h2⟩

theorem findLongestMatch_bounds (a b : List Char) (alo ahi blo bhi : Nat)
    (h1 : alo ≤ ahi) (h2 : blo ≤ bhi) :
    BlockBounds alo ahi blo bhi (findLongestMatch a b alo ahi blo bhi) := by
  unfold findLongestMatch
  have hb := dpBest_bounds a b alo ahi blo bhi h1 h2
  set st := dpBest a b alo ahi blo bhi with hst
  have hb2 := extendBack_bounds a b alo blo ahi bhi st.1 st.2.1 st.2.2
    hb.1 hb.2.1 hb.2.2.1 hb.2.2.2
  set st2 := extendBack a b alo blo st.1 st.2.1 st.2.2 with hst2
  have hf := extendFwd_le a b ahi bhi st2.1 st2.2.1 ahi st2.2.2 hb2.2.1 hb2.2.2.2
  exact ⟨hb2.1, hf.1, hb2.2.2.1, hf.2⟩

theorem mtF_le (a b : List Char) : ∀ fuel alo ahi blo bhi,
    mtF a b fuel alo ahi blo bhi ≤ min (ahi - alo) (bhi - blo) := by
  intro fuel
  induction fuel with
  | zero => intro alo ahi blo bhi; simp [mtF]
  | succ n ih =>
    intro alo ahi blo bhi
    simp only [mtF]
    split
    · rename_i hlt
      have hfb := findLongestMatch_bounds a b alo ahi blo bhi
        (le_of_lt hlt.1) (le_of_lt hlt.2)
      set m := findLongestMatch a b alo ahi blo bhi with hm
      obtain ⟨hm1, hm2, hm3, hm4⟩ := hfb
      split
      · have ihL := ih alo m.1 blo m.2.1
        have ihR := ih (m.1 + m.2.2) ahi (m.2.1 + m.2.2) bhi
        simp only [Nat.le_min] at ihL ihR ⊢
        constructor <;> (split <;> split <;> omega)
      · simp
    · simp

/-- The fuel of `mtF` is unobservable: any two fuels at least the termination
measure `(ahi - alo) + (bhi - blo)` give the same total, so `matchTotal`
(which supplies `len(a) + len(b) ≥` the measure) computes the true recursion
of `get_matching_blocks`. -/
theorem mtF_fuel_irrelevant (a b : List Char) : ∀ f1 f2 alo ahi blo bhi,
    (ahi - alo) + (bhi - blo) ≤ f1 → (ahi - alo) + (bhi - blo) ≤ f2 →
    mtF a b f1 alo ahi blo bhi = mtF a b f2 alo ahi blo bhi := by
  intro f1
  induction f1 with
  | zero =>
    intro f2 alo ahi blo bhi h1 h2
    cases f2 with
    | zero => rfl
    | succ m =>
      simp only [mtF]
      rw [if_neg (by omega)]
  | succ n ih =>
    intro f2 alo ahi blo bhi h1 h2
    cases f2 with
    | zero =>
      simp only [mtF]
      rw [if_neg (by omega)]
    | succ m =>
      simp only [mtF]
      by_cases hg : alo < ahi ∧ blo < bhi
      · rw [if_pos hg, if_pos hg]
        have hfb := findLongestMatch_bounds a b alo ahi blo bhi
          (le_of_lt hg.1) (le_of_lt hg.2)
        obtain ⟨hm1, hm2, hm3, hm4⟩ := hfb
        by_cases hk : 0 < (findLongestMatch a b alo ahi blo bhi).2.2
        · rw [if_pos hk, if_pos hk]
          have hL : (if alo < (findLongestMatch a b alo ahi blo bhi).1 ∧
                blo < (findLongestMatch a b alo ahi blo bhi).2.1 then
                mtF a b n alo (findLongestMatch a b alo ahi blo bhi).1 blo
                  (findLongestMatch a b alo ahi blo bhi).2.1 else 0) =
              (if alo < (findLongestMatch a b alo ahi blo bhi).1 ∧
                blo < (findLongestMatch a b alo ahi blo bhi).2.1 then
                mtF a b m alo (findLongestMatch a b alo ahi blo bhi).1 blo
                  (findLongestMatch a b alo ahi blo bhi).2.1 else 0) := by
            by_cases hLc : alo < (findLongestMatch a b alo ahi blo bhi).1 ∧
                blo < (findLongestMatch a b alo ahi blo bhi).2.1
            · rw [if_pos hLc, if_pos hLc]
              exact ih m alo _ blo _ (by omega) (by omega)
            · rw [if_neg hLc, if_neg hLc]
          have hR : (if (findLongestMatch a b alo ahi blo bhi).1 +
                (findLongestMatch a b alo ahi blo bhi).2.2 < ahi ∧
                (findLongestMatch a b alo ahi blo bhi).2.1 +
                (findLongestMatch a b alo ahi blo bhi).2.2 < bhi then
                mtF a b n ((findLongestMatch a b alo ahi blo bhi).1 +
                  (findLongestMatch a b alo ahi blo bhi).2.2) ahi
                  ((findLongestMatch a b alo ahi blo bhi).2.1 +
                  (findLongestMatch a b alo ahi blo bhi).2.2) bhi else 0) =
              (if (findLongestMatch a b alo ahi blo bhi).1 +
                (findLongestMatch a b alo ahi blo bhi).2.2 < ahi ∧
                (findLongestMatch a b alo ahi blo bhi).2.1 +
                (findLongestMatch a b alo ahi blo bhi).2.2 < bhi then
                mtF a b m ((findLongestMatch a b alo ahi blo bhi).1 +
                  (findLongestMatch a b alo ahi blo bhi).2.2) ahi
                  ((findLongestMatch a b alo ahi blo bhi).2.1 +
                  (findLongestMatch a b alo ahi blo bhi).2.2) bhi else 0) := by
            by_cases hRc : (findLongestMatch a b alo ahi blo bhi).1 +
                (findLongestMatch a b alo ahi blo bhi).2.2 < ahi ∧
                (findLongestMatch a b alo ahi blo bhi).2.1 +
                (findLongestMatch a b alo ahi blo bhi).2.2 < bhi
            · rw [if_pos hRc, if_pos hRc]
              exact ih m _ ahi _ bhi (by omega) (by omega)
            · rw [if_neg hRc, if_neg hRc]
          rw [hL, hR]
        · rw [if_neg hk, if_neg hk]
      · rw [if_neg hg, if_neg hg]

theorem matchTotal_le_min (a b : List Char) :
    matchTotal a b ≤ min a.length b.length := by
  have := mtF_le a b (a.length + b.length) 0 a.length 0 b.length
  simpa using this

theorem ratio_nonneg (a b : List Char) : 0 ≤ ratio a b := by
  unfold ratio
  split
  · norm_num
  · apply div_nonneg
    · positivity
    · positivity

/-! ## Lemmas about the verify_veracity layer -/

theorem dedup_length_le_append (x y : List String) :
    x.dedup.length ≤ (x ++ y).dedup.length := by
  rw [← List.card_toFinset, ← List.card_toFinset]
  apply Finset.card_le_card
  intro s hs
  rw [List.mem_toFinset] at hs ⊢
  exact List.mem_append.2 (Or.inl hs)

theorem interCard_le_unionCard (x y : List String) :
    interCard x y ≤ unionCard x y := by
  unfold interCard unionCard
  exact le_trans (List.length_filter_le _ _) (dedup_length_le_append x y)

theorem overlapRat_nonneg (x y : List String) :
    0 ≤ (interCard x y : Rat) / (unionCard x y : Rat) := by
  apply div_nonneg <;> positivity

theorem overlapRat_le_one (x y : List String) :
    (interCard x y : Rat) / (unionCard x y : Rat) ≤ 1 := by
  rcases Nat.eq_zero_or_pos (unionCard x y) with hz | hp
  · rw [hz]
    simp
  · rw [div_le_one (by exact_mod_cast hp)]
    exact_mod_cast interCard_le_unionCard x y

theorem mkMatch_components (nlp : NLP) (pi : String) (ik : List String)
    (article : Article) :
    (mkMatch nlp pi ik article).title_similarity =
        calculate_similarity pi article.title ∧
      (mkMatch nlp pi ik article).description_similarity =
        calculate_similarity pi article.description ∧
      (mkMatch nlp pi ik article).keyword_overlap =
        (interCard ik (extract_keywords nlp (preprocess_text
            (article.title ++ " " ++ article.description))) : Rat) /
          (unionCard ik (extract_keywords nlp (preprocess_text
            (article.title ++ " " ++ article.description))) : Rat) ∧
      (mkMatch nlp pi ik article).match_score =
        (mkMatch nlp pi ik article).title_similarity * (2/5) +
          (mkMatch nlp pi ik article).description_similarity * (2/5) +
          (mkMatch nlp pi ik article).keyword_overlap * (1/5) :=
  ⟨rfl, rfl, rfl, rfl⟩

theorem insertDesc_perm (m : MatchResult) (l : List MatchResult) :
    (insertDesc m l).Perm (m :: l) := by
  induction l with
  | nil => exact List.Perm.refl _
  | cons y t ih =>
    rw [insertDesc]
    split
    · exact (ih.cons y).trans (List.Perm.swap y m t).symm
    · exact List.Perm.refl _

theorem sortAux_perm (l : List MatchResult) :
    ∀ acc, (l.foldl (fun acc m => insertDesc m acc) acc).Perm (acc ++ l) := by
  induction l with
  | nil => intro acc; simp
  | cons m t ih =>
    intro acc
    rw [List.foldl_cons]
    refine (ih (insertDesc m acc)).trans ?_
    refine ((insertDesc_perm m acc).append_right t).trans ?_
    exact List.perm_middle.symm

theorem sortDesc_perm (l : List MatchResult) : (sortDesc l).Perm l := by
  simpa using sortAux_perm l []

theorem insertDesc_sorted {m : MatchResult} {l : List MatchResult}
    (h : l.Pairwise fun u v => v.match_score ≤ u.match_score) :
    (insertDesc m l).Pairwise fun u v => v.match_score ≤ u.match_score := by
  induction l with
  | nil => simp [insertDesc]
  | cons y t ih =>
    rw [insertDesc]
    obtain ⟨hy, ht⟩ := List.pairwise_cons.1 h
    split
    · rename_i hle
      refine List.pairwise_cons.2 ⟨?_, ih ht⟩
      intro v hv
      rcases List.mem_cons.1 ((insertDesc_perm m t).mem_iff.1 hv) with rfl | hv
      · exact hle
      · exact hy v hv
    · rename_i hgt
      refine List.pairwise_cons.2 ⟨?_, h⟩
      intro v hv
      have hym : y.match_score ≤ m.match_score := le_of_lt (lt_of_not_ge hgt)
      rcases List.mem_cons.1 hv with rfl | hv
      · exact hym
      · exact le_trans (hy v hv) hym

theorem sortDesc_sorted (l : List MatchResult) :
    (sortDesc l).Pairwise fun u v => v.match_score ≤ u.match_score := by
  have main : ∀ (l acc : List MatchResult),
      (acc.Pairwise fun u v => v.match_score ≤ u.match_score) →
      ((l.foldl (fun acc m => insertDesc m acc) acc).Pairwise
        fun u v => v.match_score ≤ u.match_score) := by
    intro l
    induction l with
    | nil => intro acc hacc; exact hacc
    | cons m t ih =>
      intro acc hacc
      rw [List.foldl_cons]
      exact ih _ (insertDesc_sorted hacc)
  exact main l [] (by simp)

theorem insertDesc_filter_eq {l : List MatchResult} (m : MatchResult)
    (hsort : l.Pairwise fun u v => v.match_score ≤ u.match_score) (s : Rat) :
    (insertDesc m l).filter (fun x => x.match_score == s) =
      l.filter (fun x => x.match_score == s) ++
        (if m.match_score = s then [m] else []) := by
  induction l with
  | nil =>
    by_cases hms : m.match_score = s <;>
      simp [insertDesc, List.filter_cons, beq_iff_eq, hms]
  | cons y t ih =>
    obtain ⟨hy, ht⟩ := List.pairwise_cons.1 hsort
    rw [insertDesc]
    split
    · rename_i hle
      rw [List.filter_cons, List.filter_cons]
      by_cases hys : y.match_score = s
      · simp only [hys, beq_self_eq_true, if_pos]
        rw [ih ht]
        simp
      · simp only [beq_eq_false_iff_ne.2 hys, Bool.false_eq_true, if_neg, ih ht]
        simp [hys]
    · rename_i hgt
      by_cases hms : m.match_score = s
      · have hf0 : (y :: t).filter (fun x => x.match_score == s) = [] := by
          rw [List.filter_eq_nil_iff]
          intro v hv
          have hvy : v.match_score ≤ y.match_score := by
            rcases List.mem_cons.1 hv with rfl | hv
            · exact le_refl _
            · exact hy v hv
          have hym : y.match_score < m.match_score := lt_of_not_ge hgt
          simp only [beq_iff_eq]
          intro heq
          rw [heq] at hvy
          exact absurd hvy (not_le.2 (hms ▸ hym))
        rw [List.filter_cons, hf0]
        simp [hms]
      · rw [List.filter_cons]
        simp [hms, List.filter_cons]

theorem sortDesc_filter_eq (l : List MatchResult) (s : Rat) :
    (sortDesc l).filter (fun x => x.match_score == s) =
      l.filter (fun x => x.match_score == s) := by
  have main : ∀ (l acc : List MatchResult),
      (acc.Pairwise fun u v => v.match_score ≤ u.match_score) →
      ((l.foldl (fun acc m => insertDesc m acc) acc).filter
          (fun x => x.match_score == s)) =
        acc.filter (fun x => x.match_score == s) ++
          l.filter (fun x => x.match_score == s) := by
    intro l
    induction l with
    | nil => intro acc _; simp
    | cons m t ih =>
      intro acc hacc
      rw [List.foldl_cons, ih _ (insertDesc_sorted hacc),
        insertDesc_filter_eq m hacc s, List.filter_cons]
      by_cases hms : m.match_score = s
      · simp [hms]
      · simp [hms]
  simpa using main l [] (by simp)

theorem scoreArticle_ok {nlp : NLP} {pi : String} {ik : List String} {article : Article}
    {mo : Option MatchResult}
    (h : scoreArticle nlp pi ik article = .ok mo) :
    mo = (if 3/10 < (mkMatch nlp pi ik article).match_score
          then some (mkMatch nlp pi ik article) else none) := by
  simp only [scoreArticle] at h
  split at h
  · exact absurd h (by simp)
  · simpa using h.symm

theorem collectMatches_ok {nlp : NLP} {pi : String} {ik : List String} :
    ∀ {articles : List Article} {raw : List MatchResult},
      collectMatches nlp pi ik articles = .ok raw →
      raw = articles.filterMap (fun article =>
        if 3/10 < (mkMatch nlp pi ik article).match_score
        then some (mkMatch nlp pi ik article) else none) := by
  intro articles
  induction articles with
  | nil =>
    intro raw h
    simp only [collectMatches] at h
    injection h with h2
    simp [← h2]
  | cons a rest ih =>
    intro raw h
    simp only [collectMatches] at h
    cases hsc : scoreArticle nlp pi ik a with
    | error e =>
      rw [hsc] at h
      simp [Bind.bind, Except.bind] at h
    | ok mo =>
      rw [hsc] at h
      cases hcm : collectMatches nlp pi ik rest with
      | error e =>
        rw [hcm] at h
        simp [Bind.bind, Except.bind] at h
      | ok ms =>
        rw [hcm] at h
        simp only [Bind.bind, Except.bind, pure, Except.pure] at h
        injection h with h2
        have hmo := scoreArticle_ok hsc
        have hms := ih hcm
        subst hmo
        subst hms
        rw [List.filterMap_cons]
        by_cases hc : (3 : Rat)/10 < (mkMatch nlp pi ik a).match_score
        · rw [if_pos hc] at h2 ⊢
          exact h2.symm
        · rw [if_neg hc] at h2 ⊢
          exact h2.symm

theorem verify_veracity_ok_inv {nlp : NLP} {sources : TrustConfig} {input_text : String}
    {articles : List Article} {r : VeracityResult}
    (h : verify_veracity nlp sources input_text articles = .ok r) :
    ∃ raw, collectMatches nlp (preprocess_text input_text)
        (extract_keywords nlp (preprocess_text input_text)) articles = .ok raw ∧
      ((raw = [] ∧ r = ⟨0, 0, [], "unknown"⟩) ∨
        (raw ≠ [] ∧
          r = ⟨((sortDesc raw).headD dummyMatch).match_score *
                get_source_trust_level sources "veridica",
               min 1 (((sortDesc raw).length : Rat) * (1/5)),
               sortDesc raw,
               verdictBucket (((sortDesc raw).headD dummyMatch).match_score *
                 get_source_trust_level sources "veridica")⟩)) := by
  simp only [verify_veracity] at h
  cases hcm : collectMatches nlp (preprocess_text input_text)
      (extract_keywords nlp (preprocess_text input_text)) articles with
  | error e =>
    rw [hcm] at h
    simp [Bind.bind, Except.bind] at h
  | ok raw =>
    rw [hcm] at h
    refine ⟨raw, rfl, ?_⟩
    cases raw with
    | nil =>
      left
      simp only [Bind.bind, Except.bind, pure, Except.pure] at h
      injection h with h2
      exact ⟨rfl, h2.symm⟩
    | cons m0 mrest =>
      right
      simp only [Bind.bind, Except.bind, pure, Except.pure] at h
      injection h with h2
      exact ⟨by simp, h2.symm⟩

/-! ## The identical-sequences case: `ratio(a, a) = 1` -/

theorem charsOk_iff {a b : List Char} {i j : Nat} :
    charsOk a b i j = true ↔
      ∃ c, a.get? i = some c ∧ b.get? j = some c ∧ popularB b c = false := by
  unfold charsOk
  cases hi : a.get? i with
  | none => simp
  | some x =>
    cases hj : b.get? j with
    | none => simp
    | some y =>
      simp only [Bool.and_eq_true, beq_iff_eq, Bool.not_eq_true', Option.some.injEq]
      constructor
      · rintro ⟨rfl, hp⟩
        exact ⟨x, rfl, rfl, hp⟩
      · rintro ⟨c, rfl, rfl, hp⟩
        exact ⟨rfl, hp⟩

theorem charsOk_self_right {a : List Char} {i j : Nat}
    (h : charsOk a a i j = true) : charsOk a a j j = true := by
  obtain ⟨c, _, hj, hp⟩ := charsOk_iff.1 h
  exact charsOk_iff.2 ⟨c, hj, hj, hp⟩

theorem charsOk_self_left {a : List Char} {i j : Nat}
    (h : charsOk a a i j = true) : charsOk a a i i = true := by
  obtain ⟨c, hi, _, hp⟩ := charsOk_iff.1 h
  exact charsOk_iff.2 ⟨c, hi, hi, hp⟩

theorem visitB_self_right {a : List Char} {blo bhi i j : Nat}
    (h : visitB a a blo bhi i j = true) : visitB a a blo bhi j j = true := by
  unfold visitB at h ⊢
  simp only [Bool.and_eq_true, decide_eq_true_eq] at h ⊢
  exact ⟨h.1, charsOk_self_right h.2⟩

theorem visitB_self_left {a : List Char} {blo bhi i j : Nat}
    (h : visitB a a blo bhi i j = true) (hlo : blo ≤ i) (hhi : i < bhi) :
    visitB a a blo bhi i i = true := by
  unfold visitB at h ⊢
  simp only [Bool.and_eq_true, decide_eq_true_eq] at h ⊢
  exact ⟨⟨hlo, hhi⟩, charsOk_self_left h.2⟩

theorem dpLen_self_le_diag_left (a : List Char) (alo bhi : Nat) :
    ∀ j i, j ≤ i → dpLen a a alo alo bhi i j ≤ dpLen a a alo alo bhi j j := by
  intro j
  induction j with
  | zero =>
    intro i _
    cases i with
    | zero => exact le_refl _
    | succ n =>
      simp only [dpLen]
      by_cases hv : visitB a a alo bhi (n + 1) 0 = true
      · rw [if_pos hv, if_pos (visitB_self_right hv), if_neg (by omega)]
      · rw [if_neg hv]
        split <;> omega
  | succ m ih =>
    intro i hij
    cases i with
    | zero => omega
    | succ n =>
      simp only [dpLen]
      by_cases hv : visitB a a alo bhi (n + 1) (m + 1) = true
      · rw [if_pos hv, if_pos (visitB_self_right hv)]
        by_cases halo : alo < m + 1
        · rw [if_pos ⟨by omega, halo⟩, if_pos ⟨halo, halo⟩]
          have := ih n (by omega)
          simp only [Nat.add_sub_cancel] at *
          omega
        · rw [if_neg (by omega), if_neg (by omega)]
      · rw [if_neg hv]
        split <;> omega

theorem dpLen_self_le_diag_right (a : List Char) (alo bhi : Nat) :
    ∀ i j, i ≤ j → alo ≤ i → i < bhi →
      dpLen a a alo alo bhi i j ≤ dpLen a a alo alo bhi i i := by
  intro i
  induction i with
  | zero =>
    intro j _ hlo hhi
    simp only [dpLen]
    by_cases hv : visitB a a alo bhi 0 j = true
    · rw [if_pos hv, if_pos (visitB_self_left hv hlo hhi)]
    · rw [if_neg hv]
      split <;> omega
  | succ n ih =>
    intro j hij hlo hhi
    cases j with
    | zero => omega
    | succ m =>
      simp only [dpLen]
      by_cases hv : visitB a a alo bhi (n + 1) (m + 1) = true
      · rw [if_pos hv, if_pos (visitB_self_left hv hlo hhi)]
        by_cases halo : alo < n + 1
        · rw [if_pos ⟨halo, by omega⟩, if_pos ⟨halo, halo⟩]
          have := ih m (by omega) (by omega) (by omega)
          simp only [Nat.add_sub_cancel] at *
          omega
        · rw [if_neg (by omega), if_neg (by omega)]
      · rw [if_neg hv]
        split <;> omega

theorem mem_done_of_cellLt {full done post : List (Nat × Nat)} {c x : Nat × Nat}
    (hp : full.Pairwise cellLt) (hfull : full = done ++ c :: post)
    (hx : x ∈ full) (hlt : cellLt x c) : x ∈ done := by
  subst hfull
  rcases List.mem_append.1 hx with h | h
  · exact h
  · rcases List.mem_cons.1 h with rfl | h
    · exact absurd hlt (fun hl => by rcases hl with h | ⟨_, h⟩ <;> exact lt_irrefl _ h)
    · have h2 := (List.pairwise_append.1 hp).2.1
      have hcx : cellLt c x := (List.pairwise_cons.1 h2).1 x h
      exact (cellLt_asymm hlt hcx).elim

theorem dpBest_self_diag (a : List Char) (alo ahi : Nat) :
    (dpBest a a alo ahi alo ahi).1 = (dpBest a a alo ahi alo ahi).2.1 := by
  have hstep : ∀ (st : Nat × Nat × Nat) done c post,
      cells a a alo ahi alo ahi = done ++ c :: post →
      (st.1 = st.2.1 ∧ ∀ m, (m, m) ∈ done → dpLen a a alo alo ahi m m ≤ st.2.2) →
      ((bestStep a a alo alo ahi st c).1 = (bestStep a a alo alo ahi st c).2.1 ∧
        ∀ m, (m, m) ∈ done ++ [c] →
          dpLen a a alo alo ahi m m ≤ (bestStep a a alo alo ahi st c).2.2) := by
    rintro st done ⟨i, j⟩ post hfull ⟨hdiag, hbound⟩
    have hcfull : ((i, j) : Nat × Nat) ∈ cells a a alo ahi alo ahi := by
      rw [hfull]; simp
    obtain ⟨hc1, hc2, hcv⟩ := mem_cells.1 hcfull
    have hjr := visitB_range hcv
    by_cases hij : i = j
    · subst hij
      simp only [bestStep]
      split
      · rename_i hup
        refine ⟨rfl, ?_⟩
        intro m hm
        rcases List.mem_append.1 hm with hm | hm
        · exact le_trans (hbound m hm) (le_of_lt hup)
        · have hmi : m = i := by simpa using hm
          subst hmi
          exact le_refl _
      · rename_i hup
        refine ⟨hdiag, ?_⟩
        intro m hm
        rcases List.mem_append.1 hm with hm | hm
        · exact hbound m hm
        · have hmi : m = i := by simpa using hm
          subst hmi
          exact Nat.le_of_not_lt hup
    · have hk : dpLen a a alo alo ahi i j ≤ st.2.2 := by
        rcases Nat.lt_or_ge j i with hji | hge
        · have hvjj := visitB_self_right hcv
          have hmem : ((j, j) : Nat × Nat) ∈ cells a a alo ahi alo ahi :=
            mem_cells.2 ⟨hjr.1, hjr.2, hvjj⟩
          have hdone := mem_done_of_cellLt (cells_pairwise a a alo ahi alo ahi)
            hfull hmem (Or.inl hji)
          exact le_trans (dpLen_self_le_diag_left a alo ahi j i (le_of_lt hji))
            (hbound j hdone)
        · have hij3 : i < j := by omega
          have hvii := visitB_self_left hcv hc1 hc2
          have hmem : ((i, i) : Nat × Nat) ∈ cells a a alo ahi alo ahi :=
            mem_cells.2 ⟨hc1, hc2, hvii⟩
          have hdone := mem_done_of_cellLt (cells_pairwise a a alo ahi alo ahi)
            hfull hmem (Or.inr ⟨rfl, hij3⟩)
          exact le_trans (dpLen_self_le_diag_right a alo ahi i j (le_of_lt hij3) hc1 hc2)
            (hbound i hdone)
      simp only [bestStep]
      rw [if_neg (Nat.not_lt.2 hk)]
      refine ⟨hdiag, ?_⟩
      intro m hm
      rcases List.mem_append.1 hm with hm | hm
      · exact hbound m hm
      · have hmm : m = i ∧ m = j := by simpa using hm
        exact absurd (hmm.1.symm.trans hmm.2) hij
  have h := foldl_prefix_inv (bestStep a a alo alo ahi)
    (fun st done => st.1 = st.2.1 ∧
      ∀ m, (m, m) ∈ done → dpLen a a alo alo ahi m m ≤ st.2.2)
    (cells a a alo ahi alo ahi) hstep (cells a a alo ahi alo ahi) [] (alo, alo, 0)
    (by simp) ⟨rfl, by intro m hm; simp at hm⟩
  exact h.1

theorem charsEq_self {a : List Char} {i : Nat} (h : i < a.length) :
    charsEq a a i i = true := by
  unfold charsEq
  cases hg : a.get? i with
  | none => exact absurd (List.get?_eq_none.1 hg) (by omega)
  | some x => simp

theorem extendBack_self (a : List Char) (alo : Nat) :
    ∀ d bk, alo ≤ d → d ≤ a.length →
      extendBack a a alo alo d d bk = (alo, alo, bk + (d - alo)) := by
  intro d
  induction d with
  | zero =>
    intro bk h1 _
    have h0 : alo = 0 := by omega
    subst h0
    rfl
  | succ n ih =>
    intro bk h1 h2
    rw [extendBack]
    by_cases halo : alo < n + 1
    · have hc : charsEq a a n n = true := charsEq_self (by omega)
      rw [if_pos ⟨halo, halo, by simpa using hc⟩]
      have hrec := ih (bk + 1) (by omega) (by omega)
      simp only [Nat.add_sub_cancel]
      rw [hrec]
      have h3 : bk + 1 + (n - alo) = bk + (n + 1 - alo) := by omega
      rw [h3]
    · rw [if_neg (fun hcontra => halo hcontra.1)]
      have h0 : alo = n + 1 := by omega
      subst h0
      simp

theorem extendFwd_self (a : List Char) (ahi bi : Nat) (hahi : ahi ≤ a.length) :
    ∀ fuel bk, bi + bk ≤ ahi → ahi - (bi + bk) ≤ fuel →
      extendFwd a a ahi ahi bi bi fuel bk = ahi - bi := by
  intro fuel
  induction fuel with
  | zero =>
    intro bk h1 h2
    simp only [extendFwd]
    omega
  | succ n ih =>
    intro bk h1 h2
    rw [extendFwd]
    by_cases hlt : bi + bk < ahi
    · have hc : charsEq a a (bi + bk) (bi + bk) = true := charsEq_self (by omega)
      rw [if_pos ⟨hlt, hlt, hc⟩]
      exact ih (bk + 1) (by omega) (by omega)
    · rw [if_neg (fun hcontra => hlt hcontra.1)]
      omega

theorem findLongestMatch_self (a : List Char) (alo ahi : Nat)
    (h1 : alo ≤ ahi) (h2 : ahi ≤ a.length) :
    findLongestMatch a a alo ahi alo ahi = (alo, alo, ahi - alo) := by
  have hb := dpBest_bounds a a alo ahi alo ahi h1 h1
  have hd := dpBest_self_diag a alo ahi
  simp only [findLongestMatch]
  obtain ⟨hb1, hb2, hb3, hb4⟩ := hb
  rw [← hd]
  have he := extendBack_self a alo (dpBest a a alo ahi alo ahi).1
    (dpBest a a alo ahi alo ahi).2.2 hb1 (by omega)
  rw [he]
  dsimp only
  have hf := extendFwd_self a ahi alo h2 ahi
    ((dpBest a a alo ahi alo ahi).2.2 + ((dpBest a a alo ahi alo ahi).1 - alo))
    (by omega) (by omega)
  rw [hf]

theorem matchTotal_self (a : List Char) : matchTotal a a = a.length := by
  unfold matchTotal
  rcases Nat.eq_zero_or_pos a.length with hz | hp
  · rw [hz]
    rfl
  · obtain ⟨n, hn⟩ : ∃ n, a.length + a.length = n + 1 := ⟨a.length + a.length - 1, by omega⟩
    rw [hn]
    simp only [mtF]
    rw [findLongestMatch_self a 0 a.length (Nat.zero_le _) (le_refl _)]
    rw [if_pos ⟨hp, hp⟩]
    dsimp only
    rw [if_pos (by omega : (0 : Nat) < a.length - 0)]
    rw [if_neg (by omega), if_neg (by omega)]
    omega

theorem ratio_self (a : List Char) : ratio a a = 1 := by
  unfold ratio
  split
  · rfl
  · rename_i h
    rw [matchTotal_self]
    have hQ : ((a.length : Rat) + (a.length : Rat)) ≠ 0 := by
      have hpos : (0 : Rat) < (a.length : Rat) + (a.length : Rat) := by
        have : 0 < a.length + a.length := by omega
        exact_mod_cast this
      exact ne_of_gt hpos
    rw [div_eq_one_iff_eq hQ]
    ring

theorem mtF_nil_left (b : List Char) : ∀ fuel blo bhi, mtF [] b fuel 0 0 blo bhi = 0 := by
  intro fuel blo bhi
  cases fuel with
  | zero => rfl
  | succ n => simp [mtF]

theorem mtF_nil_right (a : List Char) : ∀ fuel alo ahi, mtF a [] fuel alo ahi 0 0 = 0 := by
  intro fuel alo ahi
  cases fuel with
  | zero => rfl
  | succ n => simp [mtF]

theorem matchTotal_nil_left (b : List Char) : matchTotal [] b = 0 :=
  mtF_nil_left b _ 0 b.length

theorem matchTotal_nil_right (a : List Char) : matchTotal a [] = 0 :=
  mtF_nil_right a _ 0 a.length

theorem ratio_nil_comm (l : List Char) : ratio [] l = ratio l [] := by
  unfold ratio
  rcases Nat.eq_zero_or_pos l.length with hz | hp
  · simp [hz]
  · rw [if_neg (by simp only [List.length_nil]; omega),
      if_neg (by simp only [List.length_nil]; omega)]
    rw [matchTotal_nil_left, matchTotal_nil_right]
    norm_num

theorem ratio_le_one (a b : List Char) : ratio a b ≤ 1 := by
  unfold ratio
  split
  · exact le_refl 1
  · rename_i h
    have hpos : (0 : Rat) < (a.length : Rat) + (b.length : Rat) := by
      have : 0 < a.length + b.length := Nat.pos_of_ne_zero h
      exact_mod_cast this
    rw [div_le_one hpos]
    have h2 : 2 * matchTotal a b ≤ a.length + b.length := by
      have := matchTotal_le_min a b
      simp only [Nat.le_min] at this
      omega
    exact_mod_cast h2

theorem headD_mem {l : List MatchResult} (h : l ≠ []) : l.headD dummyMatch ∈ l := by
  cases l with
  | nil => exact absurd rfl h
  | cons x t => exact List.mem_cons_self x t

theorem sortDesc_ne_nil {l : List MatchResult} (h : l ≠ []) : sortDesc l ≠ [] := by
  intro hcontra
  have hlen := (sortDesc_perm l).length_eq
  rw [hcontra] at hlen
  exact h (List.length_eq_zero.1 hlen.symm)

/-! ## The claims -/

/-- C1: the spec demands that an empty keyword union yields
`keyword_overlap = 0.0` with no exception, but the division in
`verify_veracity` (line 155) has no guard: with an empty claim and an
article whose title and description are both empty, both keyword sets are
empty and the code raises `ZeroDivisionError`.  The theorem evaluates the
embedded code at that failing input, for any tokenizer that maps the empty
string to no tokens (as `nltk.word_tokenize` does) and any trust
configuration. -/
theorem C1_empty_union_raises_zero_division (nlp : NLP) (sources : TrustConfig)
    (htok : nlp.tokenize "" = []) :
    verify_veracity nlp sources ""
      [{ title := "", link := "", description := "" }] =
      .error .zeroDivisionError := by
  have hpre : preprocess_text "" = "" := by decide
  have hpre2 : preprocess_text ("" ++ " " ++ "") = "" := by decide
  have htl : String.mk ("".data.map Char.toLower) = "" := by decide
  have hik : extract_keywords nlp "" = [] := by
    unfold extract_keywords
    rw [htl, htok]
    rfl
  have hsc : scoreArticle nlp "" [] { title := "", link := "", description := "" } =
      .error .zeroDivisionError := by
    simp only [scoreArticle]
    rw [hpre2, hik]
    rfl
  simp only [verify_veracity, collectMatches]
  rw [hpre, hik, hsc]
  rfl

theorem C1_witness : simpleNLP.tokenize "" = [] ∧
    verify_veracity simpleNLP [] "" [{ title := "", link := "", description := "" }] =
      .error .zeroDivisionError :=
  ⟨by decide, C1_empty_union_raises_zero_division simpleNLP [] (by decide)⟩

/-- C2 counterexample: with an empty claim text and the single article
`{title: "", description: "abc"}`, `verify_veracity` does not return the
empty-matches result: `title_similarity = ratio("", "") = 1.0` already gives
`match_score = 0.4 > 0.3`, so the article becomes a match (with the standing
NLTK model: whitespace tokenizer, no stopwords, identity stemmer, and the
empty trust configuration). -/
theorem C2_counterexample :
    verify_veracity simpleNLP [] "" [{ title := "", link := "", description := "abc" }] ≠
      Except.ok { veracity_score := 0, confidence := 0, «matches» := [],
                  verdict := "unknown" } := by
  decide

/-- C2 (amended): for every claim text, tokenizer and trust configuration,
`verify_veracity` on the empty article list raises no exception and returns
the empty-matches result `{0.0, 0.0, [], "unknown"}`.  The other half of the
original claim is false: an empty claim text against a non-empty article
list can produce matches (an empty article title scores
`title_similarity = 1.0`), and even a `ZeroDivisionError` when an article
has empty title and description. -/
theorem C2_empty_articles_unknown (nlp : NLP) (sources : TrustConfig)
    (input_text : String) :
    verify_veracity nlp sources input_text [] =
      .ok { veracity_score := 0, confidence := 0, «matches» := [],
            verdict := "unknown" } := by
  rfl

/-- C3: whenever `verify_veracity` returns with a non-empty matches list,
`veracity_score` is the best (first) match's `match_score` times the trust
level of the hardcoded source `'veridica'`, `confidence` is
`min(1.0, len(matches) * 0.2)`, and the verdict follows the thresholds
`> 0.7 → "true"`, `> 0.4 → "likely_true"`, `> 0.2 → "likely_false"`,
otherwise `"false"`. -/
theorem C3_nonempty_result_fields (nlp : NLP) (sources : TrustConfig)
    (input_text : String) (articles : List Article) (r : VeracityResult)
    (h : verify_veracity nlp sources input_text articles = .ok r)
    (hne : r.«matches» ≠ []) :
    r.veracity_score = (r.«matches».headD dummyMatch).match_score *
        get_source_trust_level sources "veridica" ∧
      r.confidence = min 1 ((r.«matches».length : Rat) * (1/5)) ∧
      r.verdict = (if 7/10 < r.veracity_score then "true"
        else if 2/5 < r.veracity_score then "likely_true"
        else if 1/5 < r.veracity_score then "likely_false" else "false") := by
  obtain ⟨raw, hcm, hcase⟩ := verify_veracity_ok_inv h
  rcases hcase with ⟨hraw, hr⟩ | ⟨hraw, hr⟩
  · rw [hr] at hne
    simp at hne
  · subst hr
    exact ⟨rfl, rfl, rfl⟩

theorem C3_witness :
    ({ veracity_score := 1/2, confidence := 1/5,
       «matches» := [{ article := { title := "abc", link := "l", description := "abc" },
                       match_score := 1, title_similarity := 1,
                       description_similarity := 1, keyword_overlap := 1 }],
       verdict := "likely_true" } : VeracityResult).veracity_score =
      (({ veracity_score := 1/2, confidence := 1/5,
          «matches» := [{ article := { title := "abc", link := "l", description := "abc" },
                          match_score := 1, title_similarity := 1,
                          description_similarity := 1, keyword_overlap := 1 }],
          verdict := "likely_true" } : VeracityResult).«matches».headD
            dummyMatch).match_score *
        get_source_trust_level [("veridica", 1/2)] "veridica" :=
  (C3_nonempty_result_fields simpleNLP [("veridica", 1/2)] "abc"
    [{ title := "abc", link := "l", description := "abc" }]
    { veracity_score := 1/2, confidence := 1/5,
      «matches» := [{ article := { title := "abc", link := "l", description := "abc" },
                      match_score := 1, title_similarity := 1,
                      description_similarity := 1, keyword_overlap := 1 }],
      verdict := "likely_true" } (by decide) (by decide)).1

/-- C4: on every run of `verify_veracity` that returns a result, the matches
list contains exactly the per-article records whose `match_score` exceeds
`0.3` (as a permutation of the in-order admitted list), it is sorted in
non-increasing `match_score` order, and the sort is stable: for every score
value, the records carrying that score appear in the same order as in the
admitted (input-order) list. -/
theorem C4_matches_admission_sort_stability (nlp : NLP) (sources : TrustConfig)
    (input_text : String) (articles : List Article) (r : VeracityResult)
    (h : verify_veracity nlp sources input_text articles = .ok r) :
    (∀ m ∈ r.«matches», 3/10 < m.match_score) ∧
      r.«matches».Pairwise (fun u v => v.match_score ≤ u.match_score) ∧
      r.«matches».Perm (articles.filterMap (admitArticle nlp input_text)) ∧
      ∀ s : Rat, r.«matches».filter (fun m => m.match_score == s) =
        (articles.filterMap (admitArticle nlp input_text)).filter
          (fun m => m.match_score == s) := by
  obtain ⟨raw, hcm, hcase⟩ := verify_veracity_ok_inv h
  have hraw := collectMatches_ok hcm
  have hadm : articles.filterMap (admitArticle nlp input_text) = raw := by
    rw [hraw]
    rfl
  rcases hcase with ⟨hrawnil, hr⟩ | ⟨hne, hr⟩
  · subst hrawnil
    subst hr
    refine ⟨by simp, by simp, ?_, ?_⟩
    · rw [hadm]
    · intro s
      rw [hadm]
  · subst hr
    have hsP : (sortDesc raw).Perm raw := sortDesc_perm raw
    refine ⟨?_, sortDesc_sorted raw, ?_, ?_⟩
    · intro m hm
      have hm2 : m ∈ raw := hsP.mem_iff.1 hm
      rw [hraw] at hm2
      obtain ⟨article, _, hart⟩ := List.mem_filterMap.1 hm2
      by_cases hc : (3 : Rat)/10 < (mkMatch nlp (preprocess_text input_text)
          (extract_keywords nlp (preprocess_text input_text)) article).match_score
      · rw [if_pos hc] at hart
        injection hart with hart
        rw [← hart]
        exact hc
      · rw [if_neg hc] at hart
        exact absurd hart (by simp)
    · rw [hadm]
      exact hsP
    · intro s
      rw [hadm]
      exact sortDesc_filter_eq raw s

theorem C4_witness :
    ({ veracity_score := 1/2, confidence := 1/5,
       «matches» := [{ article := { title := "abc", link := "l", description := "abc" },
                       match_score := 1, title_similarity := 1,
                       description_similarity := 1, keyword_overlap := 1 }],
       verdict := "likely_true" } : VeracityResult).«matches».Pairwise
      (fun u v => v.match_score ≤ u.match_score) :=
  (C4_matches_admission_sort_stability simpleNLP [("veridica", 1/2)] "abc"
    [{ title := "abc", link := "l", description := "abc" }]
    { veracity_score := 1/2, confidence := 1/5,
      «matches» := [{ article := { title := "abc", link := "l", description := "abc" },
                      match_score := 1, title_similarity := 1,
                      description_similarity := 1, keyword_overlap := 1 }],
      verdict := "likely_true" } (by decide)).2.1

/-- C5: on every run of `verify_veracity` that returns a result, each match
record satisfies `match_score = 0.4·title_similarity +
0.4·description_similarity + 0.2·keyword_overlap` with all three component
scores in `[0, 1]`, hence `match_score ∈ [0, 1]`; and if the trust level of
`'veridica'` lies in `[0, 1]` then `veracity_score ∈ [0, 1]` as well. -/
theorem C5_score_invariants (nlp : NLP) (sources : TrustConfig)
    (input_text : String) (articles : List Article) (r : VeracityResult)
    (h : verify_veracity nlp sources input_text articles = .ok r) :
    (∀ m ∈ r.«matches»,
        (0 ≤ m.title_similarity ∧ m.title_similarity ≤ 1) ∧
        (0 ≤ m.description_similarity ∧ m.description_similarity ≤ 1) ∧
        (0 ≤ m.keyword_overlap ∧ m.keyword_overlap ≤ 1) ∧
        m.match_score = m.title_similarity * (2/5) +
          m.description_similarity * (2/5) + m.keyword_overlap * (1/5) ∧
        (0 ≤ m.match_score ∧ m.match_score ≤ 1)) ∧
      (0 ≤ get_source_trust_level sources "veridica" →
        get_source_trust_level sources "veridica" ≤ 1 →
        0 ≤ r.veracity_score ∧ r.veracity_score ≤ 1) := by
  obtain ⟨raw, hcm, hcase⟩ := verify_veracity_ok_inv h
  have hraw := collectMatches_ok hcm
  have hbounds : ∀ m ∈ raw,
      (0 ≤ m.title_similarity ∧ m.title_similarity ≤ 1) ∧
      (0 ≤ m.description_similarity ∧ m.description_similarity ≤ 1) ∧
      (0 ≤ m.keyword_overlap ∧ m.keyword_overlap ≤ 1) ∧
      m.match_score = m.title_similarity * (2/5) +
        m.description_similarity * (2/5) + m.keyword_overlap * (1/5) ∧
      (0 ≤ m.match_score ∧ m.match_score ≤ 1) := by
    intro m hm
    rw [hraw] at hm
    obtain ⟨article, _, hart⟩ := List.mem_filterMap.1 hm
    by_cases hc : (3 : Rat)/10 < (mkMatch nlp (preprocess_text input_text)
        (extract_keywords nlp (preprocess_text input_text)) article).match_score
    · rw [if_pos hc] at hart
      injection hart with hart
      subst hart
      have ht0 : (0 : Rat) ≤ (mkMatch nlp (preprocess_text input_text)
          (extract_keywords nlp (preprocess_text input_text))
          article).title_similarity := ratio_nonneg _ _
      have ht1 : (mkMatch nlp (preprocess_text input_text)
          (extract_keywords nlp (preprocess_text input_text))
          article).title_similarity ≤ 1 := ratio_le_one _ _
      have hd0 : (0 : Rat) ≤ (mkMatch nlp (preprocess_text input_text)
          (extract_keywords nlp (preprocess_text input_text))
          article).description_similarity := ratio_nonneg _ _
      have hd1 : (mkMatch nlp (preprocess_text input_text)
          (extract_keywords nlp (preprocess_text input_text))
          article).description_similarity ≤ 1 := ratio_le_one _ _
      have hk0 : (0 : Rat) ≤ (mkMatch nlp (preprocess_text input_text)
          (extract_keywords nlp (preprocess_text input_text))
          article).keyword_overlap := overlapRat_nonneg _ _
      have hk1 : (mkMatch nlp (preprocess_text input_text)
          (extract_keywords nlp (preprocess_text input_text))
          article).keyword_overlap ≤ 1 := overlapRat_le_one _ _
      have hms : (mkMatch nlp (preprocess_text input_text)
          (extract_keywords nlp (preprocess_text input_text)) article).match_score =
          (mkMatch nlp (preprocess_text input_text)
            (extract_keywords nlp (preprocess_text input_text))
            article).title_similarity * (2/5) +
          (mkMatch nlp (preprocess_text input_text)
            (extract_keywords nlp (preprocess_text input_text))
            article).description_similarity * (2/5) +
          (mkMatch nlp (preprocess_text input_text)
            (extract_keywords nlp (preprocess_text input_text))
            article).keyword_overlap * (1/5) := rfl
      refine ⟨⟨ht0, ht1⟩, ⟨hd0, hd1⟩, ⟨hk0, hk1⟩, hms, ?_, ?_⟩
      · rw [hms]
        linarith
      · rw [hms]
        linarith
    · rw [if_neg hc] at hart
      exact absurd hart (by simp)
  rcases hcase with ⟨hrawnil, hr⟩ | ⟨hne, hr⟩
  · subst hrawnil
    subst hr
    refine ⟨by simp, ?_⟩
    intro _ _
    norm_num
  · subst hr
    refine ⟨?_, ?_⟩
    · intro m hm
      exact hbounds m ((sortDesc_perm raw).mem_iff.1 hm)
    · intro htr0 htr1
      have hbest : (sortDesc raw).headD dummyMatch ∈ raw :=
        (sortDesc_perm raw).mem_iff.1 (headD_mem (sortDesc_ne_nil hne))
      obtain ⟨_, _, _, _, hms0, hms1⟩ := hbounds _ hbest
      exact ⟨mul_nonneg hms0 htr0, mul_le_one₀ hms1 htr0 htr1⟩

theorem C5_witness :
    0 ≤ ({ veracity_score := 1/2, confidence := 1/5,
           «matches» := [{ article := { title := "abc", link := "l", description := "abc" },
                           match_score := 1, title_similarity := 1,
                           description_similarity := 1, keyword_overlap := 1 }],
           verdict := "likely_true" } : VeracityResult).veracity_score ∧
      ({ veracity_score := 1/2, confidence := 1/5,
         «matches» := [{ article := { title := "abc", link := "l", description := "abc" },
                         match_score := 1, title_similarity := 1,
                         description_similarity := 1, keyword_overlap := 1 }],
         verdict := "likely_true" } : VeracityResult).veracity_score ≤ 1 :=
  (C5_score_invariants simpleNLP [("veridica", 1/2)] "abc"
    [{ title := "abc", link := "l", description := "abc" }]
    { veracity_score := 1/2, confidence := 1/5,
      «matches» := [{ article := { title := "abc", link := "l", description := "abc" },
                      match_score := 1, title_similarity := 1,
                      description_similarity := 1, keyword_overlap := 1 }],
      verdict := "likely_true" } (by decide)).2 (by decide) (by decide)

/-- C6 counterexample: the sequence-ratio similarity is not symmetric:
`SequenceMatcher(None, "tide", "diet").ratio() = 0.25` but
`SequenceMatcher(None, "diet", "tide").ratio() = 0.5` (the greedy
first-longest-block choice differs with the argument order). -/
theorem C6_counterexample :
    calculate_similarity "tide" "diet" ≠ calculate_similarity "diet" "tide" := by
  decide

/-- C6 (amended): `calculate_similarity` is not symmetric in general
(see the counterexample `("tide", "diet")`); it is symmetric when the two
texts are equal or when either text is empty. -/
theorem C6_symmetry_restricted (a b : String) (h : a = b ∨ a = "" ∨ b = "") :
    calculate_similarity a b = calculate_similarity b a := by
  rcases h with rfl | rfl | rfl
  · rfl
  · exact ratio_nil_comm b.data
  · exact (ratio_nil_comm a.data).symm

theorem C6_witness :
    (("" : String) = "xy" ∨ ("" : String) = "" ∨ ("xy" : String) = "") ∧
      calculate_similarity "" "xy" = calculate_similarity "xy" "" :=
  ⟨Or.inr (Or.inl rfl), C6_symmetry_restricted "" "xy" (Or.inr (Or.inl rfl))⟩

/-- C7: the skip guard of `find_similar_articles` is dead code: the claim
(and the spec) say an article with empty title and empty description is
skipped, but `article_text = f"{title} {description}"` always contains the
joining space, so `if not article_text: continue` never fires.  At the
failing input (one article with empty title and description, threshold
`-1`) the article is scored (the TF-IDF cosine of token-free texts is `0`
under the standing model) and `0 > -1` admits it, so the result list
contains an entry for the empty article instead of being empty. -/
theorem C7_empty_article_not_skipped :
    find_similar_articles id (fun _ _ => 0) "claim"
      [{ title := "", link := "", description := "" }] false (-1) =
      [{ title := "", link := "", description := "", similarity := 0,
         tagged_bad := false }] := by
  decide

/-- C8: `get_source_trust_level` returns the registered `trust_level` when
the source name is a key of the loaded mapping and `0.0` when it is not; a
missing or malformed configuration file loads as the empty mapping, for
which every name yields `0.0`; no error is ever raised (the function is
total). -/
theorem C8_trust_level_lookup :
    (∀ (sources : TrustConfig) (name : String) (t : Rat),
        sources.lookup name = some t → get_source_trust_level sources name = t) ∧
      (∀ (sources : TrustConfig) (name : String),
        sources.lookup name = none → get_source_trust_level sources name = 0) ∧
      (∀ name : String, get_source_trust_level [] name = 0) := by
  refine ⟨?_, ?_, ?_⟩
  · intro sources name t h
    unfold get_source_trust_level
    rw [h]
  · intro sources name h
    unfold get_source_trust_level
    rw [h]
  · intro name
    rfl

theorem C8_witness :
    get_source_trust_level [("veridica", 9/10)] "veridica" = 9/10 ∧
      get_source_trust_level [("veridica", 9/10)] "other" = 0 :=
  ⟨C8_trust_level_lookup.1 [("veridica", 9/10)] "veridica" (9/10) (by decide),
   C8_trust_level_lookup.2.1 [("veridica", 9/10)] "other" (by decide)⟩

/-- C9: for every non-empty text `a`, the sequence-ratio similarity of `a`
with itself is exactly `1.0`.  (This holds through autojunk: even when
popular characters are dropped from `b2j`, the DP best block on identical
slices is diagonal and the non-junk extension loops grow it to the whole
string.) -/
theorem C9_self_similarity_one (a : String) (h : a ≠ "") :
    calculate_similarity a a = 1 :=
  ratio_self a.data

theorem C9_witness : ("abc" : String) ≠ "" ∧ calculate_similarity "abc" "abc" = 1 :=
  ⟨by decide, C9_self_similarity_one "abc" (by decide)⟩

/-- C10: when both inputs are the empty string the sequence-ratio similarity
is `1.0` (`_calculate_ratio` returns `1.0` for total length `0`), so inside
`verify_veracity` an empty processed claim scores `title_similarity = 1.0`
against an article whose (raw) title is also empty. -/
theorem C10_empty_empty_similarity_one :
    calculate_similarity "" "" = 1 ∧
      (mkMatch simpleNLP "" [] { title := "", link := "", description := "abc" }).title_similarity = 1 := by
  decide

end Scrapper

end ScrapperDevelopment
